import Mathlib

/-!
# Column Treatment Engine — verification of src/DA.py (tab 3)

Shallow embedding of the data model and the treatment handlers of the
Streamlit data-cleaning page in `src/DA.py`.

* A cell value is null (pandas NaN), a number (pandas numeric, modelled by ℚ),
  or a string (pandas object).
* A DataFrame is a list of rows, each row carrying its pandas index label
  (a `Nat`); values in a row are addressed positionally by column index.
  Labels matter because pandas column assignment (`cleaned[c] = data[c]`,
  the per-column reset handler) aligns on the index, and `dropna` keeps the
  surviving rows' original labels.
* The session state mirrors `st.session_state`: `data` (the snapshot taken at
  upload time), `cleaned_data` (the working frame), and
  `column_treatment_status` (a dict keyed by column; we model the `treated`
  and `method` keys, the ones the treatment logic reads — the remaining keys
  are display-only strings).
-/

inductive Val where
  | null : Val
  | num : ℚ → Val
  | str : String → Val
deriving DecidableEq, Repr

/-- The natural ascending order pandas uses when it sorts a homogeneous
column of values (numbers by magnitude, strings lexicographically); the
cross-constructor cases never arise inside one homogeneous column and are
fixed arbitrarily to make the relation total. -/
def vleb (a b : Val) : Bool :=
  match a, b with
  | .null, _ => true
  | .num _, .null => false
  | .num x, .num y => decide (x ≤ y)
  | .num _, .str _ => true
  | .str _, .null => false
  | .str _, .num _ => false
  | .str x, .str y => decide (x ≤ y)

def vle (a b : Val) : Prop := vleb a b = true

instance : DecidableRel vle := fun a b => by unfold vle; infer_instance

instance : IsTotal Val vle := ⟨by
  intro a b
  cases a <;> cases b <;> simp [vle, vleb] <;> exact le_total ..⟩

instance : IsTrans Val vle := ⟨by
  intro a b c hab hbc
  cases a <;> cases b <;> cases c <;> simp [vle, vleb] at * <;>
    exact le_trans hab hbc⟩

instance : IsRefl Val vle := ⟨by
  intro a; cases a <;> simp [vle, vleb]⟩

/-- A row of the frame: cell values, addressed positionally by column index. -/
abbrev Row := List Val

/-- A DataFrame: rows with their pandas index labels. -/
abbrev Frame := List (Nat × Row)

/-- `row[c]` — reading a cell; out-of-range reads (which never occur on
well-formed frames) give null, matching pandas' NaN for absent data. -/
def cell (r : Row) (c : Nat) : Val := r.getD c Val.null

/-- `df[c]` as a positional list of values: the column `c` of a frame. -/
def colOf (c : Nat) (f : Frame) : List Val := f.map fun p => cell p.2 c

/-- The non-null values of column `c` (pandas statistics skip NaN). -/
def colVals (c : Nat) (f : Frame) : List Val :=
  (colOf c f).filter (· ≠ Val.null)

/-- The numeric content of a cell, when it has one. -/
def toNum : Val → Option ℚ
  | .num q => some q
  | _ => none

/-- The numeric non-null values of column `c`, used by mean/median. -/
def colNums (c : Nat) (f : Frame) : List ℚ :=
  (colOf c f).filterMap toNum

/-- `Series.fillna(v)` on one row: replace the cell at `c` by `v` when it is
null, leave it alone otherwise. -/
def fillRow (c : Nat) (v : Val) (r : Row) : Row :=
  if cell r c = Val.null then r.set c v else r

/-- `df[c] = df[c].fillna(v)`: fill the nulls of column `c` throughout. -/
def fillFrame (c : Nat) (v : Val) (f : Frame) : Frame :=
  f.map fun p => (p.1, fillRow c v p.2)

/-- Does the row have a null in any of the first `n` columns?  (`n` is the
frame's column count; pandas `df.dropna()` looks at every column.) -/
def rowHasNull (n : Nat) (r : Row) : Bool :=
  (List.range n).any fun c => cell r c = Val.null

/-- `df.mean()` over column `c`: arithmetic mean of the non-null numeric
values; none when there are no such values (pandas yields NaN there, and
`fillna(NaN)` is a no-op). -/
def meanOpt (c : Nat) (f : Frame) : Option ℚ :=
  let xs := colNums c f
  if xs.isEmpty then none else some (xs.sum / xs.length)

/-- `df.median()` over column `c`: sort the non-null numeric values; odd
count takes the middle element, even count averages the two middle ones. -/
def medianOpt (c : Nat) (f : Frame) : Option ℚ :=
  let xs := (colNums c f).insertionSort (· ≤ ·)
  if xs.length = 0 then none
  else if xs.length % 2 = 1 then some (xs.getD (xs.length / 2) 0)
  else some ((xs.getD (xs.length / 2 - 1) 0 + xs.getD (xs.length / 2) 0) / 2)

/-- The distinct values of maximal frequency among `l` — the content of
pandas `Series.mode()` before sorting. -/
def maxNat : List Nat → Nat
  | [] => 0
  | n :: ns => max n (maxNat ns)

def maxCount (l : List Val) : Nat :=
  maxNat (l.dedup.map fun v => l.count v)

def modeCandidates (l : List Val) : List Val :=
  l.dedup.filter fun v => l.count v = maxCount l

/-- `Series.mode()`: the values of maximal frequency, sorted ascending. -/
def modeList (l : List Val) : List Val :=
  (modeCandidates l).insertionSort vle

/-- `mode_series[0] if len(mode_series) > 0 else 0` from the Fill-with-Mode
branch. -/
def modeVal (l : List Val) : Val :=
  (modeList l).headD (Val.num 0)

/-- `ffill` along column `c`: a null cell takes the most recent preceding
non-null value of the column, when one exists. -/
def ffillRows (c : Nat) : Option Val → Frame → Frame
  | _, [] => []
  | last, p :: rest =>
    let v := cell p.2 c
    if v = Val.null then
      match last with
      | some w => (p.1, p.2.set c w) :: ffillRows c (some w) rest
      | none => p :: ffillRows c none rest
    else (p.1, p.2) :: ffillRows c (some v) rest

def ffillFrame (c : Nat) (f : Frame) : Frame := ffillRows c none f

/-- `bfill` is `ffill` run over the reversed row order. -/
def bfillFrame (c : Nat) (f : Frame) : Frame :=
  (ffillRows c none f.reverse).reverse

/-- `df.drop_duplicates()`: keep the first occurrence of each full-row value
tuple (pandas compares the values in every column, not the index labels). -/
def dedupRows (seen : List Row) : Frame → Frame
  | [] => []
  | p :: rest =>
    if p.2 ∈ seen then dedupRows seen rest
    else p :: dedupRows (p.2 :: seen) rest

def dropDuplicates (f : Frame) : Frame := dedupRows [] f

/-- The value `data[c]` contributes, under pandas index alignment, to the row
labelled `l` of the working frame — the semantics of the column assignment
`cleaned_data[selected_col] = data[selected_col]` in the per-column reset
handler.  A label absent from `data` would give NaN; it never occurs because
drops only remove labels. -/
def origColAt (orig : Frame) (l : Nat) (c : Nat) : Val :=
  match orig.find? (fun p => p.1 = l) with
  | some p => cell p.2 c
  | none => Val.null

/-- One entry of `column_treatment_status`: the `treated` flag and the
`method` name recorded by the handlers (the further keys are display-only
message strings). -/
structure TreatEntry where
  treated : Bool
  method : String
deriving DecidableEq, Repr

abbrev StatusMap := List (Nat × TreatEntry)

/-- Python dict assignment `m[k] = v`: overwrite in place when the key is
present, append otherwise. -/
def mapInsert (k : Nat) (v : TreatEntry) (m : StatusMap) : StatusMap :=
  if m.any (fun p => p.1 = k) then
    m.map fun p => if p.1 = k then (k, v) else p
  else m ++ [(k, v)]

/-- Python `del m[k]`. -/
def mapErase (k : Nat) (m : StatusMap) : StatusMap :=
  m.filter fun p => p.1 ≠ k

/-- Python `m.get(k)`. -/
def mapFind (k : Nat) (m : StatusMap) : Option TreatEntry :=
  (m.find? fun p => p.1 = k).map fun p => p.2

/-- The `Drop All Missing Rows` handler marks every column (`for col in
df.columns`) treated with method `Drop Rows`, in ascending column order. -/
def markAll : Nat → StatusMap → StatusMap
  | 0, m => m
  | n + 1, m => mapInsert n ⟨true, "Drop Rows"⟩ (markAll n m)

/-- The parts of `st.session_state` the treatment engine touches.  `data` is
the snapshot taken at upload; `cleaned_data` the working frame; `ncols` the
fixed column count of the frame (the engine never changes the schema). -/
structure SessionState where
  ncols : Nat
  data : Frame
  cleaned_data : Frame
  column_treatment_status : StatusMap
deriving DecidableEq, Repr

/-- The treatments the tab-3 UI can trigger: one branch per handler. -/
inductive Op where
  | dropRowsCol (c : Nat)
  | fillMean (c : Nat)
  | fillMedian (c : Nat)
  | fillMode (c : Nat)
  | fillZero (c : Nat)
  | fillUnknown (c : Nat)
  | fillMissingLabel (c : Nat)
  | fillCustom (c : Nat) (v : Val)
  | forwardFill (c : Nat)
  | backwardFill (c : Nat)
  | removeDuplicates
  | dropAllMissing
  | resetColumn (c : Nat)
  | resetAll
deriving DecidableEq, Repr

/-- The default the custom-value widget supplies for numeric columns
(`st.number_input(..., value=0.0)`), used when no value is typed. -/
def numericCustomDefault : Val := Val.num 0

/-- The default the custom-value widget supplies for text columns
(`st.text_input(..., value="")`), used when no value is typed. -/
def textCustomDefault : Val := Val.str ""

/-- One step of the engine: each arm transcribes the corresponding branch of
the apply-treatment handler (or quick-action button handler) in src/DA.py. -/
def step (op : Op) (s : SessionState) : SessionState :=
  match op with
  | .dropRowsCol c =>
    { s with
      cleaned_data := s.cleaned_data.filter fun p => cell p.2 c ≠ Val.null
      column_treatment_status :=
        mapInsert c ⟨true, "Drop Rows"⟩ s.column_treatment_status }
  | .fillMean c =>
    { s with
      cleaned_data :=
        match meanOpt c s.cleaned_data with
        | some m => fillFrame c (Val.num m) s.cleaned_data
        | none => s.cleaned_data
      column_treatment_status :=
        mapInsert c ⟨true, "Fill with Mean"⟩ s.column_treatment_status }
  | .fillMedian c =>
    { s with
      cleaned_data :=
        match medianOpt c s.cleaned_data with
        | some m => fillFrame c (Val.num m) s.cleaned_data
        | none => s.cleaned_data
      column_treatment_status :=
        mapInsert c ⟨true, "Fill with Median"⟩ s.column_treatment_status }
  | .fillMode c =>
    { s with
      cleaned_data :=
        fillFrame c (modeVal (colVals c s.cleaned_data)) s.cleaned_data
      column_treatment_status :=
        mapInsert c ⟨true, "Fill with Mode"⟩ s.column_treatment_status }
  | .fillZero c =>
    { s with
      cleaned_data := fillFrame c (Val.num 0) s.cleaned_data
      column_treatment_status :=
        mapInsert c ⟨true, "Fill with 0"⟩ s.column_treatment_status }
  | .fillUnknown c =>
    { s with
      cleaned_data := fillFrame c (Val.str "Unknown") s.cleaned_data
      column_treatment_status :=
        mapInsert c ⟨true, "Fill with Unknown"⟩ s.column_treatment_status }
  | .fillMissingLabel c =>
    { s with
      cleaned_data := fillFrame c (Val.str "Missing") s.cleaned_data
      column_treatment_status :=
        mapInsert c ⟨true, "Fill with Missing"⟩ s.column_treatment_status }
  | .fillCustom c v =>
    { s with
      cleaned_data := fillFrame c v s.cleaned_data
      column_treatment_status :=
        mapInsert c ⟨true, "Fill with Custom Value"⟩ s.column_treatment_status }
  | .forwardFill c =>
    { s with
      cleaned_data := ffillFrame c s.cleaned_data
      column_treatment_status :=
        mapInsert c ⟨true, "Forward Fill"⟩ s.column_treatment_status }
  | .backwardFill c =>
    { s with
      cleaned_data := bfillFrame c s.cleaned_data
      column_treatment_status :=
        mapInsert c ⟨true, "Backward Fill"⟩ s.column_treatment_status }
  | .removeDuplicates =>
    { s with cleaned_data := dropDuplicates s.cleaned_data }
  | .dropAllMissing =>
    { s with
      cleaned_data := s.cleaned_data.filter fun p => ¬ rowHasNull s.ncols p.2
      column_treatment_status := markAll s.ncols s.column_treatment_status }
  | .resetColumn c =>
    if c < s.ncols then
      { s with
        cleaned_data :=
          s.cleaned_data.map fun p => (p.1, p.2.set c (origColAt s.data p.1 c))
        column_treatment_status := mapErase c s.column_treatment_status }
    else s
  | .resetAll =>
    { s with cleaned_data := s.data, column_treatment_status := [] }

/-- Applying a sequence of treatments left to right. -/
def applySeq (ts : List Op) (s : SessionState) : SessionState :=
  ts.foldl (fun st op => step op st) s

/-- Modelled from the spec: the optional rounding policy for mean/median
fills (`Keep`, `RoundUp` = ceiling, `RoundDown` = floor, `RoundNearest`,
default `Keep`).  The policy appears only in the spec's contract; the code
in src/DA.py applies the raw statistic. -/
inductive RoundPolicy where
  | keep
  | roundUp
  | roundDown
  | roundNearest
deriving DecidableEq, Repr

/-- Modelled from the spec: applying the rounding policy to a fill value. -/
def applyPolicy : RoundPolicy → ℚ → ℚ
  | .keep, q => q
  | .roundUp, q => (⌈q⌉ : ℚ)
  | .roundDown, q => (⌊q⌋ : ℚ)
  | .roundNearest, q => (round q : ℚ)

/-- Modelled from the spec: the rounding policy defaults to `Keep`. -/
def defaultPolicy : RoundPolicy := RoundPolicy.keep

/-- `df[c].isnull().sum()`: the number of nulls in column `c`. -/
def countNulls (c : Nat) (f : Frame) : Nat :=
  ((colOf c f).filter fun x => x = Val.null).length

/-- A frame is well-formed at column `c` when every row is wide enough to
hold that column (DataFrames are rectangular; the engine never changes the
schema). -/
def HasCol (c : Nat) (f : Frame) : Prop :=
  ∀ p ∈ f, c < p.2.length

instance (c : Nat) (f : Frame) : Decidable (HasCol c f) := by
  unfold HasCol; infer_instance

/- ### Shared helper lemmas -/

theorem step_preserves_data (op : Op) (s : SessionState) :
    (step op s).data = s.data := by
  cases op <;> first
    | rfl
    | (simp only [step]; split <;> rfl)

theorem step_preserves_ncols (op : Op) (s : SessionState) :
    (step op s).ncols = s.ncols := by
  cases op <;> first
    | rfl
    | (simp only [step]; split <;> rfl)

theorem applySeq_preserves_data (ts : List Op) (s : SessionState) :
    (applySeq ts s).data = s.data := by
  induction ts generalizing s with
  | nil => rfl
  | cons op ts ih =>
    calc (applySeq (op :: ts) s).data = (applySeq ts (step op s)).data := rfl
      _ = (step op s).data := ih (step op s)
      _ = s.data := step_preserves_data op s

theorem applySeq_preserves_ncols (ts : List Op) (s : SessionState) :
    (applySeq ts s).ncols = s.ncols := by
  induction ts generalizing s with
  | nil => rfl
  | cons op ts ih =>
    calc (applySeq (op :: ts) s).ncols = (applySeq ts (step op s)).ncols := rfl
      _ = (step op s).ncols := ih (step op s)
      _ = s.ncols := step_preserves_ncols op s

theorem list_filter_idem {α : Type} (p : α → Bool) (l : List α) :
    (l.filter p).filter p = l.filter p := by
  induction l with
  | nil => rfl
  | cons a l ih =>
    by_cases h : p a = true <;> simp [List.filter_cons, h, ih]

theorem length_filter_ne_add_countNulls (c : Nat) (f : Frame) :
    (f.filter fun p => cell p.2 c ≠ Val.null).length + countNulls c f
      = f.length := by
  induction f with
  | nil => rfl
  | cons p f ih =>
    by_cases h : cell p.2 c = Val.null <;>
      simp [countNulls, colOf, List.filter_cons, h] at ih ⊢ <;> omega

/- ### C7, C4, C9, C1 -/

/-- C7: the original snapshot (`st.session_state.data`) is never mutated by
any treatment operation — every handler writes only `cleaned_data` and
`column_treatment_status`, so for every operation the snapshot before equals
the snapshot after. -/
theorem snapshot_never_mutated (op : Op) (s : SessionState) :
    (step op s).data = s.data :=
  step_preserves_data op s

/-- C4: after `Reset All Changes`, no matter which sequence of treatments was
applied before, the treatment-record map is empty and the working dataset is
bit-for-bit equal to the original snapshot. -/
theorem resetAll_restores (s : SessionState) (ts : List Op) :
    (step .resetAll (applySeq ts s)).column_treatment_status = [] ∧
    (step .resetAll (applySeq ts s)).cleaned_data = s.data :=
  ⟨rfl, applySeq_preserves_data ts s⟩

/-- C9: `Drop All Missing Rows` is idempotent — applying it twice in a row
yields the same dataset as applying it once. -/
theorem dropAllMissing_idempotent (s : SessionState) :
    (step .dropAllMissing (step .dropAllMissing s)).cleaned_data =
      (step .dropAllMissing s).cleaned_data :=
  list_filter_idem _ s.cleaned_data

/-- C1: `Drop Rows` on column `c` with `k > 0` nulls removes exactly the
rows where `c` was null: the result has `len - k` rows, every surviving row
has a non-null `c`, every row with non-null `c` survives unchanged as a whole
(so the values of all other columns are untouched), and the survivors keep
their original relative order (sublist). -/
theorem dropRows_spec (s : SessionState) (c : Nat)
    (hk : 0 < countNulls c s.cleaned_data) :
    (step (.dropRowsCol c) s).cleaned_data.length
        = s.cleaned_data.length - countNulls c s.cleaned_data ∧
    (∀ p ∈ (step (.dropRowsCol c) s).cleaned_data, cell p.2 c ≠ Val.null) ∧
    (∀ p ∈ s.cleaned_data, cell p.2 c ≠ Val.null →
        p ∈ (step (.dropRowsCol c) s).cleaned_data) ∧
    (step (.dropRowsCol c) s).cleaned_data.Sublist s.cleaned_data := by
  refine ⟨?_, ?_, ?_, ?_⟩
  · have h := length_filter_ne_add_countNulls c s.cleaned_data
    show (s.cleaned_data.filter fun p => cell p.2 c ≠ Val.null).length = _
    omega
  · intro p hp
    have hp' : p ∈ s.cleaned_data.filter fun p => cell p.2 c ≠ Val.null := hp
    simpa using (List.mem_filter.mp hp').2
  · intro p hp hne
    show p ∈ s.cleaned_data.filter fun p => cell p.2 c ≠ Val.null
    exact List.mem_filter.mpr ⟨hp, by simpa using hne⟩
  · exact List.filter_sublist _

def exFrameA : Frame := [(0, [Val.null]), (1, [Val.num 1])]

def exStateA : SessionState := ⟨1, exFrameA, exFrameA, []⟩

theorem dropRows_spec_witness :
    0 < countNulls 0 exStateA.cleaned_data ∧
    ((step (.dropRowsCol 0) exStateA).cleaned_data.length
        = exStateA.cleaned_data.length - countNulls 0 exStateA.cleaned_data ∧
     (∀ p ∈ (step (.dropRowsCol 0) exStateA).cleaned_data,
        cell p.2 0 ≠ Val.null) ∧
     (∀ p ∈ exStateA.cleaned_data, cell p.2 0 ≠ Val.null →
        p ∈ (step (.dropRowsCol 0) exStateA).cleaned_data) ∧
     (step (.dropRowsCol 0) exStateA).cleaned_data.Sublist
        exStateA.cleaned_data) :=
  ⟨by decide, dropRows_spec exStateA 0 (by decide)⟩

/- ### C5 — Fill with 0 -/

theorem cell_set_self (r : Row) (c : Nat) (v : Val) (h : c < r.length) :
    cell (r.set c v) c = v := by
  simp [cell, List.getD_eq_getElem?_getD, List.getElem?_set_eq_of_lt v h]

theorem cell_fillRow (c : Nat) (v : Val) (r : Row) (h : c < r.length) :
    cell (fillRow c v r) c = if cell r c = Val.null then v else cell r c := by
  by_cases hn : cell r c = Val.null
  · simp [fillRow, hn, cell_set_self r c v h]
  · simp [fillRow, hn]

theorem colOf_fillFrame (c : Nat) (v : Val) (f : Frame) (h : HasCol c f) :
    colOf c (fillFrame c v f)
      = (colOf c f).map fun x => if x = Val.null then v else x := by
  simp only [colOf, fillFrame, List.map_map]
  refine List.map_congr_left fun p hp => ?_
  simp only [Function.comp]
  exact cell_fillRow c v p.2 (h p hp)

theorem countNulls_fillFrame (c : Nat) (v : Val) (f : Frame) (h : HasCol c f)
    (hv : v ≠ Val.null) : countNulls c (fillFrame c v f) = 0 := by
  rw [countNulls, colOf_fillFrame c v f h, List.length_eq_zero,
    List.filter_eq_nil_iff]
  intro a ha
  rcases List.mem_map.mp ha with ⟨x, hx, rfl⟩
  by_cases hn : x = Val.null <;> simp [hn, hv]

/-- C5: `Fill with 0` on a column `c` with `k > 0` nulls leaves the row count
unchanged, leaves column `c` with zero nulls, and maps the column pointwise:
every previously-null cell becomes the number `0` and every previously
non-null cell keeps its value. -/
theorem fillZero_spec (s : SessionState) (c : Nat)
    (hwf : HasCol c s.cleaned_data)
    (hk : 0 < countNulls c s.cleaned_data) :
    (step (.fillZero c) s).cleaned_data.length = s.cleaned_data.length ∧
    countNulls c (step (.fillZero c) s).cleaned_data = 0 ∧
    colOf c (step (.fillZero c) s).cleaned_data
      = (colOf c s.cleaned_data).map
          fun x => if x = Val.null then Val.num 0 else x := by
  refine ⟨?_, ?_, ?_⟩
  · show (fillFrame c (Val.num 0) s.cleaned_data).length = _
    simp [fillFrame]
  · exact countNulls_fillFrame c (Val.num 0) s.cleaned_data hwf (by simp)
  · exact colOf_fillFrame c (Val.num 0) s.cleaned_data hwf

theorem fillZero_spec_witness :
    HasCol 0 exStateA.cleaned_data ∧
    0 < countNulls 0 exStateA.cleaned_data ∧
    ((step (.fillZero 0) exStateA).cleaned_data.length
        = exStateA.cleaned_data.length ∧
     countNulls 0 (step (.fillZero 0) exStateA).cleaned_data = 0 ∧
     colOf 0 (step (.fillZero 0) exStateA).cleaned_data
       = (colOf 0 exStateA.cleaned_data).map
           fun x => if x = Val.null then Val.num 0 else x) :=
  ⟨by decide, by decide, fillZero_spec exStateA 0 (by decide) (by decide)⟩

/- ### C2 — mean / median fill values and the spec's rounding policy -/

def exFrameB : Frame :=
  [(0, [Val.num 1]), (1, [Val.num 2]), (2, [Val.null]), (3, [Val.num 4])]

/-- C2: on the column `[1, 2, null, 4]` the mean fill value is `7/3 =
2.333...` and the median fill value is `2`; under the spec's optional
rounding policy (`Keep` by default) `RoundNearest` turns the mean fill into
`2`, `Keep` leaves any fill value unchanged. -/
theorem meanMedian_rounding_spec :
    meanOpt 0 exFrameB = some (7 / 3) ∧
    medianOpt 0 exFrameB = some 2 ∧
    applyPolicy RoundPolicy.roundNearest (7 / 3) = 2 ∧
    defaultPolicy = RoundPolicy.keep ∧
    ∀ q : ℚ, applyPolicy defaultPolicy q = q := by
  refine ⟨?_, ?_, ?_, rfl, fun q => rfl⟩
  · simp only [meanOpt, colNums, colOf, exFrameB, cell, toNum,
      List.map_cons, List.map_nil, List.filterMap_cons, List.filterMap_nil,
      List.getD]
    norm_num
  · simp only [medianOpt, colNums, colOf, exFrameB, cell, toNum,
      List.map_cons, List.map_nil, List.filterMap_cons, List.filterMap_nil,
      List.getD, List.insertionSort, List.orderedInsert]
    norm_num
  · show ((round ((7 : ℚ) / 3) : ℤ) : ℚ) = 2
    norm_num [round_eq]

/- ### C6 / C10 — Fill with Mode -/

theorem maxNat_mem (xs : List Nat) (h : xs ≠ []) : maxNat xs ∈ xs := by
  induction xs with
  | nil => exact absurd rfl h
  | cons n ns ih =>
    cases ns with
    | nil => simp [maxNat]
    | cons m ns' =>
      have hmem : maxNat (m :: ns') ∈ m :: ns' := ih (by simp)
      rcases le_total n (maxNat (m :: ns')) with hle | hle
      · have e : maxNat (n :: m :: ns') = maxNat (m :: ns') := max_eq_right hle
        rw [e]
        exact List.mem_cons_of_mem n hmem
      · have e : maxNat (n :: m :: ns') = n := max_eq_left hle
        rw [e]
        exact List.mem_cons_self n _

theorem modeCandidates_ne_nil (l : List Val) (h : l ≠ []) :
    modeCandidates l ≠ [] := by
  have hd : l.dedup ≠ [] := by
    intro h0
    exact h ((List.dedup_eq_nil _).mp h0)
  have hmem : maxCount l ∈ l.dedup.map fun v => l.count v :=
    maxNat_mem _ (by simpa using hd)
  rcases List.mem_map.mp hmem with ⟨v, hv, hcount⟩
  have : v ∈ modeCandidates l :=
    List.mem_filter.mpr ⟨hv, by simpa using hcount⟩
  exact List.ne_nil_of_mem this

theorem modeList_ne_nil (l : List Val) (h : l ≠ []) : modeList l ≠ [] := by
  intro h0
  have hperm := List.perm_insertionSort vle (modeCandidates l)
  rw [modeList] at h0
  rw [h0] at hperm
  exact modeCandidates_ne_nil l h hperm.symm.eq_nil

theorem modeVal_min (l : List Val) (h : l ≠ []) :
    modeVal l ∈ modeCandidates l ∧
    ∀ w ∈ modeCandidates l, vle (modeVal l) w := by
  have hne := modeList_ne_nil l h
  obtain ⟨x, rest, hx⟩ := List.exists_cons_of_ne_nil hne
  have hsorted : (modeList l).Sorted vle := List.sorted_insertionSort vle _
  have hval : modeVal l = x := by rw [modeVal, hx]; rfl
  have hmem : ∀ w, w ∈ modeList l ↔ w ∈ modeCandidates l := fun w =>
    (List.perm_insertionSort vle (modeCandidates l)).mem_iff
  constructor
  · rw [hval, ← hmem x, hx]
    exact List.mem_cons_self x rest
  · intro w hw
    rw [← hmem w, hx] at hw
    rcases List.mem_cons.mp hw with rfl | hw
    · rw [hval]; exact refl_of vle w
    · rw [hval]
      rw [hx] at hsorted
      exact List.rel_of_sorted_cons hsorted w hw

/-- C6: when Fill-with-Mode runs on a column with at least one non-null
value, the fill value it uses (`mode()[0]`) is a value of maximal frequency
that sorts first — it is `vle`-below every tied candidate — and the working
frame is the column filled with exactly that value. -/
theorem fillMode_tiebreak (s : SessionState) (c : Nat)
    (h : colVals c s.cleaned_data ≠ []) :
    modeVal (colVals c s.cleaned_data)
        ∈ modeCandidates (colVals c s.cleaned_data) ∧
    (∀ w ∈ modeCandidates (colVals c s.cleaned_data),
        vle (modeVal (colVals c s.cleaned_data)) w) ∧
    (step (.fillMode c) s).cleaned_data
      = fillFrame c (modeVal (colVals c s.cleaned_data)) s.cleaned_data := by
  obtain ⟨h1, h2⟩ := modeVal_min (colVals c s.cleaned_data) h
  exact ⟨h1, h2, rfl⟩

def exFrameC : Frame :=
  [(0, [Val.num 2]), (1, [Val.num 1]), (2, [Val.num 1]),
   (3, [Val.num 2]), (4, [Val.null])]

def exStateC : SessionState := ⟨1, exFrameC, exFrameC, []⟩

theorem fillMode_tiebreak_witness :
    colVals 0 exStateC.cleaned_data ≠ [] ∧
    (modeVal (colVals 0 exStateC.cleaned_data)
        ∈ modeCandidates (colVals 0 exStateC.cleaned_data) ∧
     (∀ w ∈ modeCandidates (colVals 0 exStateC.cleaned_data),
        vle (modeVal (colVals 0 exStateC.cleaned_data)) w) ∧
     (step (.fillMode 0) exStateC).cleaned_data
       = fillFrame 0 (modeVal (colVals 0 exStateC.cleaned_data))
           exStateC.cleaned_data) :=
  ⟨by decide, fillMode_tiebreak exStateC 0 (by decide)⟩

/- ### Status-map lemmas -/

theorem find?_map_overwrite (k : Nat) (v : TreatEntry) :
    ∀ m : StatusMap, (m.any fun p => p.1 = k) = true →
      ((m.map fun p => if p.1 = k then (k, v) else p).find? fun p => p.1 = k)
        = some (k, v)
  | [], h => by simp at h
  | p :: m, h => by
    by_cases hp : p.1 = k
    · simp [hp, List.find?_cons]
    · have h' : (m.any fun q => q.1 = k) = true := by simpa [hp] using h
      simpa [hp, List.find?_cons] using find?_map_overwrite k v m h'

theorem find?_append_absent (k : Nat) (v : TreatEntry) (m : StatusMap)
    (h : (m.any fun p => p.1 = k) = false) :
    ((m ++ [(k, v)]).find? fun p => p.1 = k) = some (k, v) := by
  rw [List.find?_append]
  have hnone : (m.find? fun p => p.1 = k) = none := by
    rw [List.find?_eq_none]
    intro x hx hxk
    have : (m.any fun p => p.1 = k) = true :=
      List.any_eq_true.mpr ⟨x, hx, hxk⟩
    rw [this] at h
    exact Bool.noConfusion h
  simp [hnone, List.find?_cons]

theorem mapFind_mapInsert_self (k : Nat) (v : TreatEntry) (m : StatusMap) :
    mapFind k (mapInsert k v m) = some v := by
  rw [mapFind, mapInsert]
  by_cases h : (m.any fun p => p.1 = k) = true
  · rw [if_pos h, find?_map_overwrite k v m h]
    rfl
  · rw [if_neg h, find?_append_absent k v m
      (by simp only [Bool.not_eq_true] at h; exact h)]
    rfl

theorem mapFind_mapErase_self (k : Nat) (m : StatusMap) :
    mapFind k (mapErase k m) = none := by
  rw [mapFind, mapErase]
  have hnone : ((m.filter fun p => p.1 ≠ k).find? fun p => p.1 = k) = none := by
    rw [List.find?_eq_none]
    intro x hx hxk
    have := (List.mem_filter.mp hx).2
    simp [hxk] at this
  rw [hnone]
  rfl

/- ### C10 — Fill with Mode on an all-null column -/

/-- C10: when Fill-with-Mode runs on a column whose values are all null,
there is no mode, the fallback `mode_series[0] if ... else 0` kicks in, and
the operation succeeds: every cell of the column becomes the number `0`
(whatever the column's semantic type) and the column is recorded as treated
with method `Fill with Mode`. -/
theorem fillMode_allNull (s : SessionState) (c : Nat)
    (hwf : HasCol c s.cleaned_data)
    (hall : ∀ x ∈ colOf c s.cleaned_data, x = Val.null) :
    colOf c (step (.fillMode c) s).cleaned_data
      = (colOf c s.cleaned_data).map (fun _ => Val.num 0) ∧
    mapFind c (step (.fillMode c) s).column_treatment_status
      = some ⟨true, "Fill with Mode"⟩ := by
  constructor
  · have hvals : colVals c s.cleaned_data = [] := by
      rw [colVals, List.filter_eq_nil_iff]
      intro a ha
      simp [hall a ha]
    have hmode : modeVal (colVals c s.cleaned_data) = Val.num 0 := by
      rw [hvals]
      rfl
    show colOf c (fillFrame c (modeVal (colVals c s.cleaned_data))
        s.cleaned_data) = _
    rw [hmode, colOf_fillFrame c (Val.num 0) s.cleaned_data hwf]
    refine List.map_congr_left fun x hx => ?_
    rw [if_pos (hall x hx)]
  · exact mapFind_mapInsert_self c ⟨true, "Fill with Mode"⟩
      s.column_treatment_status

def exFrameD : Frame := [(0, [Val.null]), (1, [Val.null])]

def exStateD : SessionState := ⟨1, exFrameD, exFrameD, []⟩

theorem fillMode_allNull_witness :
    HasCol 0 exStateD.cleaned_data ∧
    (∀ x ∈ colOf 0 exStateD.cleaned_data, x = Val.null) ∧
    (colOf 0 (step (.fillMode 0) exStateD).cleaned_data
       = (colOf 0 exStateD.cleaned_data).map (fun _ => Val.num 0) ∧
     mapFind 0 (step (.fillMode 0) exStateD).column_treatment_status
       = some ⟨true, "Fill with Mode"⟩) :=
  ⟨by decide, by decide, fillMode_allNull exStateD 0 (by decide) (by decide)⟩

/- ### C3 — per-column reset -/

/-- The column-fill treatments: the branches of the apply-treatment handler
that fill cells in place and never drop rows. -/
def IsFill : Op → Prop
  | .fillMean _ => True
  | .fillMedian _ => True
  | .fillMode _ => True
  | .fillZero _ => True
  | .fillUnknown _ => True
  | .fillMissingLabel _ => True
  | .fillCustom _ _ => True
  | .forwardFill _ => True
  | .backwardFill _ => True
  | _ => False

instance : DecidablePred IsFill := fun op => by
  cases op <;> simp only [IsFill] <;> infer_instance

theorem labels_fillFrame (c : Nat) (v : Val) (f : Frame) :
    (fillFrame c v f).map Prod.fst = f.map Prod.fst := by
  simp [fillFrame, List.map_map, Function.comp]

theorem labels_ffillRows (c : Nat) :
    ∀ (last : Option Val) (f : Frame),
      (ffillRows c last f).map Prod.fst = f.map Prod.fst
  | _, [] => rfl
  | last, p :: rest => by
    by_cases h : cell p.2 c = Val.null
    · cases last with
      | some w => simp [ffillRows, h, labels_ffillRows c (some w) rest]
      | none => simp [ffillRows, h, labels_ffillRows c none rest]
    · simp [ffillRows, h, labels_ffillRows c (some (cell p.2 c)) rest]

theorem labels_bfillFrame (c : Nat) (f : Frame) :
    (bfillFrame c f).map Prod.fst = f.map Prod.fst := by
  rw [bfillFrame, List.map_reverse, labels_ffillRows c none f.reverse,
    List.map_reverse, List.reverse_reverse]

theorem step_fill_labels (op : Op) (s : SessionState) (h : IsFill op) :
    (step op s).cleaned_data.map Prod.fst
      = s.cleaned_data.map Prod.fst := by
  cases op with
  | fillMean c =>
    show (match meanOpt c s.cleaned_data with
      | some m => fillFrame c (Val.num m) s.cleaned_data
      | none => s.cleaned_data).map Prod.fst = _
    cases meanOpt c s.cleaned_data with
    | some m => exact labels_fillFrame c (Val.num m) s.cleaned_data
    | none => rfl
  | fillMedian c =>
    show (match medianOpt c s.cleaned_data with
      | some m => fillFrame c (Val.num m) s.cleaned_data
      | none => s.cleaned_data).map Prod.fst = _
    cases medianOpt c s.cleaned_data with
    | some m => exact labels_fillFrame c (Val.num m) s.cleaned_data
    | none => rfl
  | fillMode c => exact labels_fillFrame c _ s.cleaned_data
  | fillZero c => exact labels_fillFrame c _ s.cleaned_data
  | fillUnknown c => exact labels_fillFrame c _ s.cleaned_data
  | fillMissingLabel c => exact labels_fillFrame c _ s.cleaned_data
  | fillCustom c v => exact labels_fillFrame c v s.cleaned_data
  | forwardFill c => exact labels_ffillRows c none s.cleaned_data
  | backwardFill c => exact labels_bfillFrame c s.cleaned_data
  | dropRowsCol c => exact absurd h (fun hf => hf)
  | removeDuplicates => exact absurd h (fun hf => hf)
  | dropAllMissing => exact absurd h (fun hf => hf)
  | resetColumn c => exact absurd h (fun hf => hf)
  | resetAll => exact absurd h (fun hf => hf)

theorem hasCol_fillFrame (c c' : Nat) (v : Val) (f : Frame)
    (h : HasCol c f) : HasCol c (fillFrame c' v f) := by
  intro p hp
  rcases List.mem_map.mp hp with ⟨x, hx, rfl⟩
  have hx' := h x hx
  show c < (fillRow c' v x.2).length
  unfold fillRow
  by_cases hn : cell x.2 c' = Val.null <;> simp [hn, List.length_set, hx']

theorem hasCol_ffillRows (c c' : Nat) :
    ∀ (last : Option Val) (f : Frame), HasCol c f →
      HasCol c (ffillRows c' last f)
  | _, [], _ => by intro p hp; exact absurd hp (List.not_mem_nil p)
  | last, p :: rest, h => by
    have hhead := h p (List.mem_cons_self _ _)
    have htail : HasCol c rest := fun x hx => h x (List.mem_cons_of_mem _ hx)
    by_cases hn : cell p.2 c' = Val.null
    · cases last with
      | some w =>
        intro x hx
        rw [show ffillRows c' (some w) (p :: rest)
            = (p.1, p.2.set c' w) :: ffillRows c' (some w) rest by
          simp [ffillRows, hn]] at hx
        rcases List.mem_cons.mp hx with rfl | hx
        · simpa [List.length_set] using hhead
        · exact hasCol_ffillRows c c' (some w) rest htail x hx
      | none =>
        intro x hx
        rw [show ffillRows c' none (p :: rest)
            = p :: ffillRows c' none rest by simp [ffillRows, hn]] at hx
        rcases List.mem_cons.mp hx with rfl | hx
        · exact hhead
        · exact hasCol_ffillRows c c' none rest htail x hx
    · intro x hx
      rw [show ffillRows c' last (p :: rest)
          = (p.1, p.2) :: ffillRows c' (some (cell p.2 c')) rest by
        simp [ffillRows, hn]] at hx
      rcases List.mem_cons.mp hx with rfl | hx
      · exact hhead
      · exact hasCol_ffillRows c c' (some (cell p.2 c')) rest htail x hx

theorem hasCol_reverse (c : Nat) (f : Frame) (h : HasCol c f) :
    HasCol c f.reverse := fun p hp => h p (List.mem_reverse.mp hp)

theorem hasCol_bfillFrame (c c' : Nat) (f : Frame) (h : HasCol c f) :
    HasCol c (bfillFrame c' f) := by
  intro p hp
  rw [bfillFrame] at hp
  exact hasCol_ffillRows c c' none f.reverse (hasCol_reverse c f h) p
    (List.mem_reverse.mp hp)

theorem step_fill_hasCol (op : Op) (s : SessionState) (c : Nat)
    (hf : IsFill op) (h : HasCol c s.cleaned_data) :
    HasCol c (step op s).cleaned_data := by
  cases op with
  | fillMean c' =>
    show HasCol c (match meanOpt c' s.cleaned_data with
      | some m => fillFrame c' (Val.num m) s.cleaned_data
      | none => s.cleaned_data)
    cases meanOpt c' s.cleaned_data with
    | some m => exact hasCol_fillFrame c c' (Val.num m) s.cleaned_data h
    | none => exact h
  | fillMedian c' =>
    show HasCol c (match medianOpt c' s.cleaned_data with
      | some m => fillFrame c' (Val.num m) s.cleaned_data
      | none => s.cleaned_data)
    cases medianOpt c' s.cleaned_data with
    | some m => exact hasCol_fillFrame c c' (Val.num m) s.cleaned_data h
    | none => exact h
  | fillMode c' => exact hasCol_fillFrame c c' _ s.cleaned_data h
  | fillZero c' => exact hasCol_fillFrame c c' _ s.cleaned_data h
  | fillUnknown c' => exact hasCol_fillFrame c c' _ s.cleaned_data h
  | fillMissingLabel c' => exact hasCol_fillFrame c c' _ s.cleaned_data h
  | fillCustom c' v => exact hasCol_fillFrame c c' v s.cleaned_data h
  | forwardFill c' => exact hasCol_ffillRows c c' none s.cleaned_data h
  | backwardFill c' => exact hasCol_bfillFrame c c' s.cleaned_data h
  | dropRowsCol c' => exact absurd hf (fun hh => hh)
  | removeDuplicates => exact absurd hf (fun hh => hh)
  | dropAllMissing => exact absurd hf (fun hh => hh)
  | resetColumn c' => exact absurd hf (fun hh => hh)
  | resetAll => exact absurd hf (fun hh => hh)

theorem applySeq_fill_labels (ts : List Op) (s : SessionState)
    (h : ∀ op ∈ ts, IsFill op) :
    (applySeq ts s).cleaned_data.map Prod.fst
      = s.cleaned_data.map Prod.fst := by
  induction ts generalizing s with
  | nil => rfl
  | cons op ts ih =>
    calc (applySeq (op :: ts) s).cleaned_data.map Prod.fst
        = (applySeq ts (step op s)).cleaned_data.map Prod.fst := rfl
      _ = (step op s).cleaned_data.map Prod.fst :=
          ih (step op s) fun o ho => h o (List.mem_cons_of_mem op ho)
      _ = s.cleaned_data.map Prod.fst :=
          step_fill_labels op s (h op (List.mem_cons_self op ts))

theorem applySeq_fill_hasCol (ts : List Op) (s : SessionState) (c : Nat)
    (hf : ∀ op ∈ ts, IsFill op) (h : HasCol c s.cleaned_data) :
    HasCol c (applySeq ts s).cleaned_data := by
  induction ts generalizing s with
  | nil => exact h
  | cons op ts ih =>
    exact ih (step op s) (fun o ho => hf o (List.mem_cons_of_mem op ho))
      (step_fill_hasCol op s c (hf op (List.mem_cons_self op ts)) h)

theorem origColAt_cons_ne (q : Nat × Row) (g : Frame) (l c : Nat)
    (h : l ≠ q.1) : origColAt (q :: g) l c = origColAt g l c := by
  have hne : ¬(q.1 = l) := fun he => h he.symm
  simp [origColAt, List.find?_cons, hne]

theorem aligned_reset_col (c : Nat) :
    ∀ (f g : Frame), f.map Prod.fst = g.map Prod.fst →
      (g.map Prod.fst).Nodup → HasCol c f →
      colOf c (f.map fun p => (p.1, p.2.set c (origColAt g p.1 c)))
        = colOf c g := by
  intro f
  induction f with
  | nil =>
    intro g hlab _ _
    cases g with
    | nil => rfl
    | cons q g' => exact absurd hlab (by simp)
  | cons p f' ih =>
    intro g hlab hnod hwf
    cases g with
    | nil => exact absurd hlab (by simp)
    | cons q g' =>
      simp only [List.map_cons, List.cons.injEq] at hlab
      obtain ⟨hpq, hlab'⟩ := hlab
      have hnod2 : (q.1 :: g'.map Prod.fst).Nodup := by
        rw [List.map_cons] at hnod
        exact hnod
      have hq_not : q.1 ∉ g'.map Prod.fst := (List.nodup_cons.mp hnod2).1
      have hnod' : (g'.map Prod.fst).Nodup := (List.nodup_cons.mp hnod2).2
      have hwf_head : c < p.2.length := hwf p (List.mem_cons_self _ _)
      have hwf' : HasCol c f' := fun x hx => hwf x (List.mem_cons_of_mem _ hx)
      have hhead : origColAt (q :: g') p.1 c = cell q.2 c := by
        rw [origColAt, List.find?_cons]
        simp [hpq]
      have htail :
          (f'.map fun x => (x.1, x.2.set c (origColAt (q :: g') x.1 c)))
            = f'.map fun x => (x.1, x.2.set c (origColAt g' x.1 c)) := by
        refine List.map_congr_left fun x hx => ?_
        have hxmem : x.1 ∈ g'.map Prod.fst := by
          rw [← hlab']
          exact List.mem_map_of_mem Prod.fst hx
        have hne : x.1 ≠ q.1 := fun he => hq_not (he ▸ hxmem)
        rw [origColAt_cons_ne q g' x.1 c hne]
      show cell (p.2.set c (origColAt (q :: g') p.1 c)) c
          :: colOf c (f'.map fun x => (x.1, x.2.set c (origColAt (q :: g') x.1 c)))
        = cell q.2 c :: colOf c g'
      rw [cell_set_self _ _ _ hwf_head, hhead, htail, ih g' hlab' hnod' hwf']

/-- C3 counterexample: on the snapshot `[(0, [null]), (1, [1])]`, Drop Rows
on column 0 followed by Reset-column 0 does not restore the column to the
snapshot's column — the dropped row never comes back, because the reset
assignment aligns on the surviving pandas index labels. -/
theorem resetColumn_counterexample :
    colOf 0 (step (.resetColumn 0)
        (step (.dropRowsCol 0) exStateA)).cleaned_data
      ≠ colOf 0 exStateA.data := by decide

/-- C3 (amended): for a column `c` of the original snapshot, after any
sequence of *fill* treatments (the treatments that drop no rows), the
per-column reset restores column `c` to bit-for-bit equality with the
snapshot's column and removes `c`'s entry from the treatment-record map.
When rows have been dropped, the reset only restores the surviving labels
(see the counterexample). -/
theorem resetColumn_after_fills (s0 : SessionState) (c : Nat) (ts : List Op)
    (hfresh : s0.cleaned_data = s0.data)
    (hnod : (s0.data.map Prod.fst).Nodup)
    (hc : c < s0.ncols)
    (hwf : HasCol c s0.data)
    (hfill : ∀ op ∈ ts, IsFill op) :
    colOf c (step (.resetColumn c) (applySeq ts s0)).cleaned_data
      = colOf c s0.data ∧
    mapFind c (step (.resetColumn c)
        (applySeq ts s0)).column_treatment_status = none := by
  have hncols : (applySeq ts s0).ncols = s0.ncols :=
    applySeq_preserves_ncols ts s0
  have hdata : (applySeq ts s0).data = s0.data :=
    applySeq_preserves_data ts s0
  have hlab : (applySeq ts s0).cleaned_data.map Prod.fst
      = s0.data.map Prod.fst := by
    rw [applySeq_fill_labels ts s0 hfill, hfresh]
  have hwf' : HasCol c (applySeq ts s0).cleaned_data :=
    applySeq_fill_hasCol ts s0 c hfill (hfresh ▸ hwf)
  have hguard : c < (applySeq ts s0).ncols := by rw [hncols]; exact hc
  have hstep : step (.resetColumn c) (applySeq ts s0)
      = { applySeq ts s0 with
          cleaned_data := (applySeq ts s0).cleaned_data.map fun p =>
            (p.1, p.2.set c (origColAt (applySeq ts s0).data p.1 c)),
          column_treatment_status :=
            mapErase c (applySeq ts s0).column_treatment_status } := by
    simp only [step]
    rw [if_pos hguard]
  constructor
  · rw [hstep]
    show colOf c ((applySeq ts s0).cleaned_data.map fun p =>
        (p.1, p.2.set c (origColAt (applySeq ts s0).data p.1 c)))
      = colOf c s0.data
    rw [hdata]
    exact aligned_reset_col c (applySeq ts s0).cleaned_data s0.data hlab
      hnod hwf'
  · rw [hstep]
    exact mapFind_mapErase_self c
      (applySeq ts s0).column_treatment_status

theorem resetColumn_after_fills_witness :
    exStateA.cleaned_data = exStateA.data ∧
    (exStateA.data.map Prod.fst).Nodup ∧
    0 < exStateA.ncols ∧
    HasCol 0 exStateA.data ∧
    (∀ op ∈ [Op.fillZero 0], IsFill op) ∧
    (colOf 0 (step (.resetColumn 0)
        (applySeq [Op.fillZero 0] exStateA)).cleaned_data
       = colOf 0 exStateA.data ∧
     mapFind 0 (step (.resetColumn 0)
        (applySeq [Op.fillZero 0] exStateA)).column_treatment_status = none) :=
  ⟨rfl, by decide, by decide, by decide, by decide,
   resetColumn_after_fills exStateA 0 [Op.fillZero 0] rfl (by decide)
     (by decide) (by decide) (by decide)⟩

/- ### C8 — Fill with Custom Value without a typed value -/

def exFrameE : Frame := [(0, [Val.null])]

def exStateE : SessionState := ⟨1, exFrameE, exFrameE, []⟩

/-- C8 counterexample: applying Fill-with-Custom-Value without typing a
value does not fail and does not leave the dataset unchanged — the widget
default (the empty string, for a text column) is used as the fill value, the
null cell is overwritten, and the treatment is recorded.  No
`MissingParameterError` path exists in the handler. -/
theorem fillCustom_default_counterexample :
    (step (.fillCustom 0 textCustomDefault) exStateE).cleaned_data
        ≠ exStateE.cleaned_data ∧
    mapFind 0 (step (.fillCustom 0 textCustomDefault)
        exStateE).column_treatment_status
      = some ⟨true, "Fill with Custom Value"⟩ :=
  ⟨by decide, by decide⟩

/-- C8 (amended): Fill-with-Custom-Value applied with no typed value
succeeds using the widget default (`0.0` for a numeric column, `""` for a
text column): the row count is unchanged, the column ends with zero nulls,
every previously-null cell holds the default and every other cell keeps its
value, and the column is recorded as treated with
`Fill with Custom Value`. -/
theorem fillCustom_default_spec (s : SessionState) (c : Nat) (v : Val)
    (hwf : HasCol c s.cleaned_data)
    (hv : v = numericCustomDefault ∨ v = textCustomDefault) :
    (step (.fillCustom c v) s).cleaned_data.length
        = s.cleaned_data.length ∧
    countNulls c (step (.fillCustom c v) s).cleaned_data = 0 ∧
    colOf c (step (.fillCustom c v) s).cleaned_data
      = (colOf c s.cleaned_data).map
          (fun x => if x = Val.null then v else x) ∧
    mapFind c (step (.fillCustom c v) s).column_treatment_status
      = some ⟨true, "Fill with Custom Value"⟩ := by
  have hvne : v ≠ Val.null := by
    rcases hv with rfl | rfl <;> simp [numericCustomDefault, textCustomDefault]
  refine ⟨?_, ?_, ?_, ?_⟩
  · show (fillFrame c v s.cleaned_data).length = _
    simp [fillFrame]
  · exact countNulls_fillFrame c v s.cleaned_data hwf hvne
  · exact colOf_fillFrame c v s.cleaned_data hwf
  · exact mapFind_mapInsert_self c ⟨true, "Fill with Custom Value"⟩
      s.column_treatment_status

theorem fillCustom_default_spec_witness :
    HasCol 0 exStateE.cleaned_data ∧
    (textCustomDefault = numericCustomDefault ∨
      textCustomDefault = textCustomDefault) ∧
    ((step (.fillCustom 0 textCustomDefault) exStateE).cleaned_data.length
        = exStateE.cleaned_data.length ∧
     countNulls 0 (step (.fillCustom 0 textCustomDefault)
        exStateE).cleaned_data = 0 ∧
     colOf 0 (step (.fillCustom 0 textCustomDefault) exStateE).cleaned_data
       = (colOf 0 exStateE.cleaned_data).map
           (fun x => if x = Val.null then textCustomDefault else x) ∧
     mapFind 0 (step (.fillCustom 0 textCustomDefault)
        exStateE).column_treatment_status
       = some ⟨true, "Fill with Custom Value"⟩) :=
  ⟨by decide, Or.inr rfl,
   fillCustom_default_spec exStateE 0 textCustomDefault (by decide)
     (Or.inr rfl)⟩
